import Mathlib

/-
Formal model of src/snapshot.py, a directory snapshot tool.

The Python source is shallowly embedded:
  - the filesystem seen by one run is a finite tree (FSTree / Entries below);
    a file node carries the byte content that open/read would deliver, or the
    message of the IOError that open would raise;
  - machinery from the Python standard library that the source calls
    (fnmatch.fnmatch, bytes.decode with the replace handler, str.replace,
    os.walk, os.listdir, sorted) is modelled here, faithful to its documented
    behaviour on POSIX;
  - every definition is structurally recursive, so all of them evaluate
    inside the kernel on concrete inputs.
-/

/- ---------------------------------------------------------------------
   Pattern Filter: model of fnmatch.fnmatch(name, pattern) on POSIX
   (os.path.normcase is the identity there).  A pattern is compiled to a
   token list; an opening bracket with no closing bracket is a literal,
   as in fnmatch.translate.
   --------------------------------------------------------------------- -/

inductive GlobTok where
  | lit (c : Char)
  | any
  | star
  | cls (neg : Bool) (body : List Char)

inductive TokState where
  | normal
  | inClass (neg : Bool) (consumed : List Char) (body : List Char) (first : Bool)

/-- Membership of a character in a bracket-class body: ranges a-b by code
point, a dash that is first or last is a literal. -/
def classMatch (c : Char) : List Char → Bool
  | [] => false
  | [x] => x == c
  | [x, y] => x == c || y == c
  | x :: '-' :: y :: rest => (decide (x ≤ c) && decide (c ≤ y)) || classMatch c rest
  | x :: rest => x == c || classMatch c rest

/-- When an opening bracket has no closing bracket, it is a literal and the
rest of the pattern is read normally (no closing bracket can follow, so
later brackets are literals too; stars and question marks stay wildcards). -/
def litFallback (l : List Char) : List GlobTok :=
  l.map (fun c => if c == '*' then GlobTok.star else if c == '?' then GlobTok.any else GlobTok.lit c)

def tokenizeM : TokState → List Char → List GlobTok
  | .normal, [] => []
  | .normal, '*' :: ps => .star :: tokenizeM .normal ps
  | .normal, '?' :: ps => .any :: tokenizeM .normal ps
  | .normal, '[' :: '!' :: ps => tokenizeM (.inClass true ['!'] [] true) ps
  | .normal, '[' :: ps => tokenizeM (.inClass false [] [] true) ps
  | .normal, c :: ps => .lit c :: tokenizeM .normal ps
  | .inClass _ consumed _ _, [] => .lit '[' :: litFallback consumed.reverse
  | .inClass neg consumed body true, ']' :: ps =>
      tokenizeM (.inClass neg (']' :: consumed) (']' :: body) false) ps
  | .inClass neg _ body false, ']' :: ps => .cls neg body.reverse :: tokenizeM .normal ps
  | .inClass neg consumed body _, c :: ps =>
      tokenizeM (.inClass neg (c :: consumed) (c :: body) false) ps

def tokenize (p : List Char) : List GlobTok := tokenizeM .normal p

def allSuffixes : List Char → List (List Char)
  | [] => [[]]
  | c :: rest => (c :: rest) :: allSuffixes rest

def matchTokens : List GlobTok → List Char → Bool
  | [], s => s.isEmpty
  | .star :: ts, s => (allSuffixes s).any (fun s2 => matchTokens ts s2)
  | .lit _ :: _, [] => false
  | .lit c :: ts, x :: s => c == x && matchTokens ts s
  | .any :: _, [] => false
  | .any :: ts, _ :: s => matchTokens ts s
  | .cls _ _ :: _, [] => false
  | .cls neg body :: ts, x :: s => (classMatch x body != neg) && matchTokens ts s

/-- Model of fnmatch.fnmatch(name, pat). -/
def fnmatch (name pat : String) : Bool := matchTokens (tokenize pat.data) name.data

/-- The ignore test used at lines 53, 77 and 80 of src/snapshot.py:
any(fnmatch.fnmatch(name, pattern) for pattern in ignore_patterns). -/
def pattMatch (name : String) (patterns : List String) : Bool :=
  patterns.any (fun pat => fnmatch name pat)

/-- os.path.basename of the running script (line 42 / line 73). -/
def script_name : String := "snapshot.py"

/-- The hardcoded default output file name (line 43 / line 74). -/
def output_name : String := "directory_snapshot.json"

/- ---------------------------------------------------------------------
   The filesystem seen by one run.  A file node carries the byte content
   that open/read delivers (Except.ok) or the message of the IOError that
   open raises (Except.error).  The buildFail component models the case
   guarded by the try/except at lines 88-98 of src/snapshot.py: the call
   of get_file_info for this file raises an exception with that message
   before a descriptor is produced; none means the call returns normally.
   Directory entries are listed in the order os.listdir reports them.
   --------------------------------------------------------------------- -/

mutual
inductive FSTree where
  | file (data : Except String (List Nat)) (buildFail : Option String)
  | dir (children : Entries)
inductive Entries where
  | nil
  | cons (name : String) (t : FSTree) (rest : Entries)
end

def FSTree.isDir : FSTree → Bool
  | .dir _ => true
  | .file _ _ => false

def FSTree.buildFailOf : FSTree → Option String
  | .file _ e => e
  | .dir _ => none

def Entries.toList : Entries → List (String × FSTree)
  | .nil => []
  | .cons n t rest => (n, t) :: rest.toList

def Entries.isNil : Entries → Bool
  | .nil => true
  | .cons _ _ _ => false

/- ---------------------------------------------------------------------
   Text Classifier: is_text_file, lines 8-14 of src/snapshot.py.
   Opening raising an IOError yields False; opening a directory raises
   IsADirectoryError, a subclass of OSError alias IOError, hence False.
   --------------------------------------------------------------------- -/

def is_text_file (t : FSTree) (sample_size : Nat := 8192) : Bool :=
  match t with
  | .file (.ok data) _ => !((data.take sample_size).contains 0)
  | .file (.error _) _ => false
  | .dir _ => false

/- ---------------------------------------------------------------------
   Content Normalizer: normalize_content, lines 16-18 of src/snapshot.py.
   content.replace of the two-character CRLF is a left-to-right scan over
   non-overlapping occurrences; the following replace of the lone CR is a
   character map.
   --------------------------------------------------------------------- -/

def normCRLF : List Char → List Char
  | [] => []
  | [c] => [c]
  | c1 :: c2 :: rest =>
      if c1 = '\r' && c2 = '\n' then '\n' :: normCRLF rest
      else c1 :: normCRLF (c2 :: rest)

def normCR (l : List Char) : List Char :=
  l.map (fun c => if c == '\r' then '\n' else c)

def normalize_content (s : String) : String := String.mk (normCR (normCRLF s.data))

/- ---------------------------------------------------------------------
   Model of bytes.decode with encoding utf-8 and errors replace: every
   maximal ill-formed subsequence becomes one U+FFFD, as in CPython.
   --------------------------------------------------------------------- -/

def replChar : Char := Char.ofNat 0xFFFD

def contByte (b : Nat) : Bool := 0x80 ≤ b && b ≤ 0xBF

def utf8DecodeReplace : List Nat → List Char
  | [] => []
  | b :: bs =>
    if b < 0x80 then Char.ofNat b :: utf8DecodeReplace bs
    else if b < 0xC2 then replChar :: utf8DecodeReplace bs
    else if b ≤ 0xDF then
      match bs with
      | b2 :: rest =>
          if contByte b2 then
            Char.ofNat ((b - 0xC0) * 0x40 + (b2 - 0x80)) :: utf8DecodeReplace rest
          else replChar :: utf8DecodeReplace (b2 :: rest)
      | [] => [replChar]
    else if b ≤ 0xEF then
      match bs with
      | b2 :: bs2 =>
          if (if b = 0xE0 then 0xA0 else 0x80) ≤ b2 && b2 ≤ (if b = 0xED then 0x9F else 0xBF) then
            match bs2 with
            | b3 :: rest =>
                if contByte b3 then
                  Char.ofNat ((b - 0xE0) * 0x1000 + (b2 - 0x80) * 0x40 + (b3 - 0x80))
                    :: utf8DecodeReplace rest
                else replChar :: utf8DecodeReplace (b3 :: rest)
            | [] => [replChar]
          else replChar :: utf8DecodeReplace (b2 :: bs2)
      | [] => [replChar]
    else if b ≤ 0xF4 then
      match bs with
      | b2 :: bs2 =>
          if (if b = 0xF0 then 0x90 else 0x80) ≤ b2 && b2 ≤ (if b = 0xF4 then 0x8F else 0xBF) then
            match bs2 with
            | b3 :: bs3 =>
                if contByte b3 then
                  match bs3 with
                  | b4 :: rest =>
                      if contByte b4 then
                        Char.ofNat ((b - 0xF0) * 0x40000 + (b2 - 0x80) * 0x1000
                          + (b3 - 0x80) * 0x40 + (b4 - 0x80)) :: utf8DecodeReplace rest
                      else replChar :: utf8DecodeReplace (b4 :: rest)
                  | [] => [replChar]
                else replChar :: utf8DecodeReplace (b3 :: bs3)
            | [] => [replChar]
          else replChar :: utf8DecodeReplace (b2 :: bs2)
      | [] => [replChar]
    else replChar :: utf8DecodeReplace bs

def pyDecode (data : List Nat) : String := String.mk (utf8DecodeReplace data)

/- ---------------------------------------------------------------------
   Relative paths.  The walker reaches a file through the segment list
   from the scanned root; os.path.relpath(file_path, base_path) followed
   by .replace(os.sep, slash) joins those segments with a slash.
   --------------------------------------------------------------------- -/

def joinSegs : List String → List Char
  | [] => []
  | [s] => s.data
  | s :: rest => s.data ++ '/' :: joinSegs rest

def joinPath (segs : List String) : String := String.mk (joinSegs segs)

/-- Splitting a character list at every slash; used only to state claims
about the produced path strings. -/
def splitSlash : List Char → List (List Char)
  | [] => [[]]
  | c :: rest =>
      if c = '/' then [] :: splitSlash rest
      else
        match splitSlash rest with
        | [] => [[c]]
        | s :: ss => (c :: s) :: ss

/- ---------------------------------------------------------------------
   File Descriptor Builder: get_file_info, lines 20-37 of src/snapshot.py.
   The content and error components of the produced record are factored
   into file_payload; an Option none models an absent dictionary key.
   --------------------------------------------------------------------- -/

structure FileRecord where
  path : String
  content : Option String
  error : Option String
deriving DecidableEq, Repr

structure ErrorRecord where
  path : String
  error : String
deriving DecidableEq, Repr

/-- str(e) for the IsADirectoryError raised when opening a directory for
reading; get_file_info is only ever called on non-directories by the
walker, so this message is unreachable from generate_snapshot. -/
def isDirMsg : String := "[Errno 21] Is a directory"

def file_payload (t : FSTree) (include_content : Bool) (max_size : Nat) :
    Option String × Option String :=
  if include_content then
    match t with
    | .dir _ => (none, some isDirMsg)
    | .file (.error msg) _ => (none, some msg)
    | .file (.ok data) _ =>
        if is_text_file t then
          (some (normalize_content (pyDecode (data.take max_size))), none)
        else (some "<binary_content>", none)
  else (none, none)

def get_file_info (t : FSTree) (segs : List String) (include_content : Bool)
    (max_size : Nat) : FileRecord :=
  { path := joinPath segs
    content := (file_payload t include_content max_size).1
    error := (file_payload t include_content max_size).2 }

/- ---------------------------------------------------------------------
   Tree Walker: the os.walk loop of generate_snapshot, lines 76-98.
   os.walk yields for each visited directory its entries split into
   directories and the rest, both in listdir order; the loop over files
   runs before the recursion into the surviving subdirectories, and the
   dirs[:] filter at line 77 prunes ignored directories before descent.
   processFiles walks the entry list skipping directories, exactly the
   loop at lines 79-98; walkDirs recurses into the kept directories.
   --------------------------------------------------------------------- -/

def processFiles (P : List String) (ic : Bool) (ms : Nat) :
    Entries → List String → List FileRecord × List ErrorRecord
  | .nil, _ => ([], [])
  | .cons name t rest, segs =>
      let tail := processFiles P ic ms rest segs
      if t.isDir then tail
      else if pattMatch name P then tail
      else if name == script_name || name == output_name then tail
      else
        match t.buildFailOf with
        | some msg => (tail.1, { path := joinPath (segs ++ [name]), error := msg } :: tail.2)
        | none => (get_file_info t (segs ++ [name]) ic ms :: tail.1, tail.2)

mutual
def walkTree (P : List String) (ic : Bool) (ms : Nat) :
    FSTree → List String → List FileRecord × List ErrorRecord
  | .file _ _, _ => ([], [])
  | .dir children, segs =>
      let here := processFiles P ic ms children segs
      let sub := walkDirs P ic ms children segs
      (here.1 ++ sub.1, here.2 ++ sub.2)
def walkDirs (P : List String) (ic : Bool) (ms : Nat) :
    Entries → List String → List FileRecord × List ErrorRecord
  | .nil, _ => ([], [])
  | .cons name t rest, segs =>
      let hd := if t.isDir && !pattMatch name P then walkTree P ic ms t (segs ++ [name])
                else ([], [])
      let tl := walkDirs P ic ms rest segs
      (hd.1 ++ tl.1, hd.2 ++ tl.2)
end

/- ---------------------------------------------------------------------
   Structure Renderer: generate_simple_file_structure, lines 39-62.
   The source filters and sorts the listing of every directory it visits
   (lines 52-54) and then recurses; here that per-level filter and sort
   is factored into the preprocessing pass pruneSortTree, followed by a
   pure rendering pass.  Filtering and sorting touch only entry names,
   so the composition is the same function.  sortByName is an insertion
   sort by the string order Python sorted uses: code point lexicographic.
   Each rendered line is paired with the segment path of the entry that
   produced it; the rendered string is the join of the line components.
   --------------------------------------------------------------------- -/

def charListLe : List Char → List Char → Bool
  | [], _ => true
  | _ :: _, [] => false
  | a :: as, b :: bs => if a < b then true else if b < a then false else charListLe as bs

def strLe (a b : String) : Bool := charListLe a.data b.data

/-- The filter at lines 53-54: not ignored, not the script, not the
default output file; identical for files and directories there. -/
def keepEntry (name : String) (P : List String) : Bool :=
  !pattMatch name P && name != script_name && name != output_name

def Entries.keepB (P : List String) : Entries → Entries
  | .nil => .nil
  | .cons n t rest => if keepEntry n P then .cons n t (Entries.keepB P rest)
                      else Entries.keepB P rest

def Entries.insertByName (n : String) (t : FSTree) : Entries → Entries
  | .nil => .cons n t .nil
  | .cons m u rest =>
      if strLe n m then .cons n t (.cons m u rest)
      else .cons m u (Entries.insertByName n t rest)

def Entries.sortByName : Entries → Entries
  | .nil => .nil
  | .cons n t rest => Entries.insertByName n t (Entries.sortByName rest)

mutual
def pruneSortTree (P : List String) : FSTree → FSTree
  | .file d e => .file d e
  | .dir c => .dir (Entries.sortByName (Entries.keepB P (pruneSortChildren P c)))
def pruneSortChildren (P : List String) : Entries → Entries
  | .nil => .nil
  | .cons n t rest => .cons n (pruneSortTree P t) (pruneSortChildren P rest)
end

def connector (is_last : Bool) : String := if is_last then "└── " else "├── "

def contPrefix (is_last : Bool) : String := if is_last then "    " else "│   "

mutual
def renderEntry (name : String) (t : FSTree) (parents : List String) (pre : String)
    (is_last : Bool) : List (List String × String) :=
  match t with
  | .file _ _ => [(parents ++ [name], pre ++ connector is_last ++ name)]
  | .dir c =>
      (parents ++ [name], pre ++ connector is_last ++ name ++ "/")
        :: renderEntries c (parents ++ [name]) (pre ++ contPrefix is_last)
def renderEntries : Entries → List String → String → List (List String × String)
  | .nil, _, _ => []
  | .cons name t rest, parents, pre =>
      renderEntry name t parents pre rest.isNil ++ renderEntries rest parents pre
end

/-- All rendered entries of the structure, each as segment path and line.
The root itself is not rendered, only its children, with empty prefix. -/
def renderedEntries (tree : FSTree) (P : List String) : List (List String × String) :=
  match pruneSortTree P tree with
  | .file _ _ => []
  | .dir c => renderEntries c [] ""

def generate_simple_file_structure (tree : FSTree) (P : List String) : String :=
  String.intercalate "\n" ((renderedEntries tree P).map Prod.snd)

/- ---------------------------------------------------------------------
   Snapshot Assembler: generate_snapshot, lines 64-100.  The errors key
   is created only when the first traversal-level error is appended, so
   it is present exactly when the error list is non-empty.
   --------------------------------------------------------------------- -/

structure Snapshot where
  file_structure : Option String
  files : List FileRecord
  errors : Option (List ErrorRecord)
deriving DecidableEq, Repr

def generate_snapshot (tree : FSTree) (P : List String) (include_content : Bool)
    (max_size : Nat) (withTree : Bool) : Snapshot :=
  let st := if withTree then some (generate_simple_file_structure tree P) else none
  let w := walkTree P include_content max_size tree []
  { file_structure := st
    files := w.1
    errors := if w.2.isEmpty then none else some w.2 }

/- ---------------------------------------------------------------------
   Well-formedness of operating system names: a directory entry name is
   non-empty, is never the two-dot parent reference, and contains no
   slash.  Every tree an operating system can hand to os.walk satisfies
   this; several claims about the produced path strings need it.
   --------------------------------------------------------------------- -/

def goodNameB (s : String) : Bool :=
  !s.data.isEmpty && s != ".." && s.data.all (fun c => !(c == '/'))

mutual
def wfTree : FSTree → Bool
  | .file _ _ => true
  | .dir c => wfEntries c
def wfEntries : Entries → Bool
  | .nil => true
  | .cons n t rest => goodNameB n && wfTree t && wfEntries rest
end

/- ---------------------------------------------------------------------
   A cleanliness predicate on trees: every entry name at every level
   passes the keepEntry filter.  The pruning pass establishes it.
   --------------------------------------------------------------------- -/

mutual
def cleanTree (P : List String) : FSTree → Bool
  | .file _ _ => true
  | .dir c => cleanEntries P c
def cleanEntries (P : List String) : Entries → Bool
  | .nil => true
  | .cons n t rest => keepEntry n P && cleanTree P t && cleanEntries P rest
end

/- ---------------------------------------------------------------------
   The retained-file relation: ReachFile P t tail ft holds when the
   walker starting at t reaches the file node ft through the segment
   list tail, every directory on the way surviving the prune at line 77
   and the file itself surviving the skips at lines 80-85.
   --------------------------------------------------------------------- -/

inductive ReachFile (P : List String) : FSTree → List String → FSTree → Prop where
  | here {c : Entries} {name : String} {t : FSTree} :
      (name, t) ∈ c.toList → t.isDir = false → pattMatch name P = false →
      name ≠ script_name → name ≠ output_name → ReachFile P (.dir c) [name] t
  | there {c : Entries} {dname : String} {dt : FSTree} {tail : List String} {t : FSTree} :
      (dname, dt) ∈ c.toList → dt.isDir = true → pattMatch dname P = false →
      ReachFile P dt tail t → ReachFile P (.dir c) (dname :: tail) t

/- Concrete trees used by witness theorems. -/

def exFile (bytes : List Nat) : FSTree := .file (.ok bytes) none

def exTree : FSTree :=
  .dir (.cons "src" (.dir (.cons "main.rs" (exFile [102]) .nil)) (.cons "a.log" (exFile []) .nil))

def exErrTree : FSTree := .dir (.cons "a" (.file (.ok []) (some "boom")) .nil)

/- =====================================================================
   Helper lemmas: strings, names, entry lists
   ===================================================================== -/

theorem strEta (s : String) : String.mk s.data = s := rfl

theorem strData_inj {a b : String} (h : a.data = b.data) : a = b := by
  cases a
  cases b
  exact congrArg String.mk h

theorem goodNameB_spec {s : String} (h : goodNameB s = true) :
    s.data ≠ [] ∧ s ≠ ".." ∧ '/' ∉ s.data := by
  rw [goodNameB] at h
  simp only [Bool.and_eq_true, Bool.not_eq_true', bne_iff_ne, List.all_eq_true,
    beq_eq_false_iff_ne] at h
  obtain ⟨⟨he, hdd⟩, hall⟩ := h
  refine ⟨fun hd => ?_, hdd, fun hm => hall '/' hm rfl⟩
  rw [hd] at he
  exact absurd he (by decide)

theorem keepEntry_split {s : String} {P : List String} (h : keepEntry s P = true) :
    pattMatch s P = false ∧ s ≠ script_name ∧ s ≠ output_name := by
  rw [keepEntry] at h
  simp only [Bool.and_eq_true, Bool.not_eq_true', bne_iff_ne] at h
  exact ⟨h.1.1, h.1.2, h.2⟩

theorem mem_toList_keepB {P : List String} :
    ∀ (e : Entries) (q : String × FSTree), q ∈ (Entries.keepB P e).toList →
      q ∈ e.toList ∧ keepEntry q.1 P = true
  | .nil, q, h => absurd h (by simp [Entries.keepB, Entries.toList])
  | .cons n t rest, q, h => by
      rw [Entries.keepB] at h
      by_cases hk : keepEntry n P = true
      · rw [if_pos hk, Entries.toList] at h
        rcases List.mem_cons.mp h with h1 | h1
        · subst h1
          exact ⟨by simp [Entries.toList], hk⟩
        · obtain ⟨h2, h3⟩ := mem_toList_keepB rest q h1
          exact ⟨by simp [Entries.toList, h2], h3⟩
      · rw [if_neg hk] at h
        obtain ⟨h2, h3⟩ := mem_toList_keepB rest q h
        exact ⟨by simp [Entries.toList, h2], h3⟩

theorem mem_toList_insert :
    ∀ (e : Entries) (n : String) (t : FSTree) (q : String × FSTree),
      q ∈ (Entries.insertByName n t e).toList → q = (n, t) ∨ q ∈ e.toList
  | .nil, n, t, q, h => by
      rw [Entries.insertByName, Entries.toList, Entries.toList] at h
      exact Or.inl (List.mem_singleton.mp h)
  | .cons m u rest, n, t, q, h => by
      rw [Entries.insertByName] at h
      by_cases hle : strLe n m = true
      · rw [if_pos hle, Entries.toList] at h
        rcases List.mem_cons.mp h with h1 | h1
        · exact Or.inl h1
        · exact Or.inr h1
      · rw [if_neg hle, Entries.toList] at h
        rcases List.mem_cons.mp h with h1 | h1
        · exact Or.inr (by simp [Entries.toList, h1])
        · rcases mem_toList_insert rest n t q h1 with h2 | h2
          · exact Or.inl h2
          · exact Or.inr (by simp [Entries.toList, h2])

theorem mem_toList_sort :
    ∀ (e : Entries) (q : String × FSTree), q ∈ (Entries.sortByName e).toList → q ∈ e.toList
  | .nil, q, h => h
  | .cons n t rest, q, h => by
      rw [Entries.sortByName] at h
      rcases mem_toList_insert _ n t q h with h1 | h1
      · simp [Entries.toList, h1]
      · simp [Entries.toList, mem_toList_sort rest q h1]

theorem cleanEntries_iff {P : List String} :
    ∀ (e : Entries), cleanEntries P e = true ↔
      ∀ q ∈ e.toList, keepEntry q.1 P = true ∧ cleanTree P q.2 = true
  | .nil => by simp [cleanEntries, Entries.toList]
  | .cons n t rest => by
      rw [cleanEntries, Entries.toList]
      simp only [Bool.and_eq_true, List.mem_cons]
      constructor
      · rintro ⟨⟨hk, hc⟩, hr⟩ q hq
        rcases hq with rfl | hq
        · exact ⟨hk, hc⟩
        · exact (cleanEntries_iff rest).mp hr q hq
      · intro h
        exact ⟨⟨(h (n, t) (Or.inl rfl)).1, (h (n, t) (Or.inl rfl)).2⟩,
          (cleanEntries_iff rest).mpr (fun q hq => h q (Or.inr hq))⟩

theorem wfEntries_mem :
    ∀ (e : Entries) (n : String) (t : FSTree), wfEntries e = true → (n, t) ∈ e.toList →
      goodNameB n = true ∧ wfTree t = true
  | .nil, n, t, _, hm => absurd hm (by simp [Entries.toList])
  | .cons m u rest, n, t, hw, hm => by
      rw [wfEntries] at hw
      simp only [Bool.and_eq_true] at hw
      rw [Entries.toList] at hm
      rcases List.mem_cons.mp hm with h | h
      · cases h
        exact ⟨hw.1.1, hw.1.2⟩
      · exact wfEntries_mem rest n t hw.2 h

/- =====================================================================
   Helper lemmas: joined paths and their decomposition at slashes
   ===================================================================== -/

theorem splitSlash_no_slash : ∀ (l : List Char), '/' ∉ l → splitSlash l = [l]
  | [], _ => rfl
  | c :: rest, h => by
      have hc : c ≠ '/' := fun hh => h (hh ▸ List.mem_cons_self c rest)
      rw [splitSlash, if_neg hc, splitSlash_no_slash rest (fun hm => h (List.mem_cons_of_mem c hm))]

theorem splitSlash_append : ∀ (l m : List Char), '/' ∉ l →
    splitSlash (l ++ '/' :: m) = l :: splitSlash m
  | [], m, _ => by rw [List.nil_append, splitSlash, if_pos rfl]
  | c :: l, m, h => by
      have hc : c ≠ '/' := fun hh => h (hh ▸ List.mem_cons_self c l)
      rw [List.cons_append, splitSlash, if_neg hc,
        splitSlash_append l m (fun hm => h (List.mem_cons_of_mem c hm))]

theorem splitSlash_join : ∀ (segs : List String), segs ≠ [] →
    (∀ s ∈ segs, '/' ∉ s.data) → splitSlash (joinSegs segs) = segs.map String.data
  | [], h, _ => absurd rfl h
  | [s], _, h => by
      rw [joinSegs, splitSlash_no_slash s.data (h s (by simp))]
      rfl
  | s :: s2 :: rest, _, h => by
      show splitSlash (s.data ++ '/' :: joinSegs (s2 :: rest)) = _
      rw [splitSlash_append s.data _ (h s (by simp)),
        splitSlash_join (s2 :: rest) (List.cons_ne_nil s2 rest)
          (fun x hx => h x (List.mem_cons_of_mem s hx))]
      rfl

theorem joinSegs_head : ∀ (s : String) (segs : List String), s.data ≠ [] →
    (joinSegs (s :: segs)).head? = s.data.head?
  | s, [], _ => rfl
  | s, s2 :: rest, h => by
      show (s.data ++ '/' :: joinSegs (s2 :: rest)).head? = s.data.head?
      cases hd : s.data with
      | nil => exact absurd hd h
      | cons c d => rfl

/- =====================================================================
   Helper lemmas: the normalizer
   ===================================================================== -/

theorem mem_normCR_ne_cr {c : Char} {l : List Char} (h : c ∈ normCR l) : c ≠ '\r' := by
  rw [normCR] at h
  obtain ⟨x, _, rfl⟩ := List.mem_map.mp h
  by_cases h2 : (x == '\r') = true
  · rw [if_pos h2]; decide
  · rw [if_neg h2]
    exact fun hh => h2 (by rw [hh]; decide)

theorem normCRLF_no_cr : ∀ (l : List Char), (∀ c ∈ l, c ≠ '\r') → normCRLF l = l
  | [], _ => rfl
  | [c], _ => rfl
  | c1 :: c2 :: rest, h => by
      have h1 : c1 ≠ '\r' := h c1 (by simp)
      rw [normCRLF, if_neg (by simp [h1]),
        normCRLF_no_cr (c2 :: rest) (fun c hc => h c (List.mem_cons_of_mem c1 hc))]

theorem normCR_no_cr_id : ∀ (l : List Char), (∀ c ∈ l, c ≠ '\r') → normCR l = l
  | [], _ => rfl
  | c :: rest, h => by
      have hc : ¬((c == '\r') = true) := fun hh => h c (by simp) (by simpa using hh)
      have ih := normCR_no_cr_id rest (fun x hx => h x (List.mem_cons_of_mem c hx))
      rw [normCR] at ih ⊢
      rw [List.map_cons, if_neg hc, ih]

/- =====================================================================
   The walker produces exactly the records of retained files
   ===================================================================== -/

theorem processFiles_spec {P : List String} {ic : Bool} {ms : Nat} :
    ∀ (e : Entries) (segs : List String) (r : FileRecord),
      r ∈ (processFiles P ic ms e segs).1 →
      ∃ name t, (name, t) ∈ e.toList ∧ t.isDir = false ∧ pattMatch name P = false ∧
        name ≠ script_name ∧ name ≠ output_name ∧ t.buildFailOf = none ∧
        r = get_file_info t (segs ++ [name]) ic ms
  | .nil, segs, r, h => absurd h (by simp [processFiles])
  | .cons name t rest, segs, r, h => by
      simp only [processFiles] at h
      split at h
      case isTrue hdir =>
        obtain ⟨n2, t2, h1, h2, h3, h4, h5, h6, h7⟩ := processFiles_spec rest segs r h
        exact ⟨n2, t2, by simp [Entries.toList, h1], h2, h3, h4, h5, h6, h7⟩
      case isFalse hdir =>
        split at h
        case isTrue hpat =>
          obtain ⟨n2, t2, h1, h2, h3, h4, h5, h6, h7⟩ := processFiles_spec rest segs r h
          exact ⟨n2, t2, by simp [Entries.toList, h1], h2, h3, h4, h5, h6, h7⟩
        case isFalse hpat =>
          split at h
          case isTrue hself =>
            obtain ⟨n2, t2, h1, h2, h3, h4, h5, h6, h7⟩ := processFiles_spec rest segs r h
            exact ⟨n2, t2, by simp [Entries.toList, h1], h2, h3, h4, h5, h6, h7⟩
          case isFalse hself =>
            simp only [Bool.or_eq_true, beq_iff_eq, not_or] at hself
            split at h
            case h_1 msg hbf =>
              dsimp only at h
              obtain ⟨n2, t2, h1, h2, h3, h4, h5, h6, h7⟩ := processFiles_spec rest segs r h
              exact ⟨n2, t2, by simp [Entries.toList, h1], h2, h3, h4, h5, h6, h7⟩
            case h_2 hbf =>
              dsimp only at h
              rcases List.mem_cons.mp h with h1 | h1
              · refine ⟨name, t, by simp [Entries.toList], ?_, ?_, hself.1, hself.2, hbf, h1⟩
                · exact Bool.not_eq_true _ ▸ Bool.of_not_eq_true hdir
                · exact Bool.of_not_eq_true hpat
              · obtain ⟨n2, t2, h1, h2, h3, h4, h5, h6, h7⟩ := processFiles_spec rest segs r h1
                exact ⟨n2, t2, by simp [Entries.toList, h1], h2, h3, h4, h5, h6, h7⟩

mutual
theorem walkTree_files_spec {P : List String} {ic : Bool} {ms : Nat} :
    ∀ (t : FSTree) (segs : List String) (r : FileRecord),
      r ∈ (walkTree P ic ms t segs).1 →
      ∃ tail ft, ReachFile P t tail ft ∧ ft.buildFailOf = none ∧
        r = get_file_info ft (segs ++ tail) ic ms
  | .file d e, segs, r, h => absurd h (by simp [walkTree])
  | .dir c, segs, r, h => by
      simp only [walkTree] at h
      rcases List.mem_append.mp h with h | h
      · obtain ⟨name, t, h1, h2, h3, h4, h5, h6, h7⟩ := processFiles_spec c segs r h
        exact ⟨[name], t, ReachFile.here h1 h2 h3 h4 h5, h6, h7⟩
      · obtain ⟨dname, dt, tail, ft, hm, hd, hp, hreach, hb, hr⟩ := walkDirs_files_spec c segs r h
        refine ⟨dname :: tail, ft, ReachFile.there hm hd hp hreach, hb, ?_⟩
        rw [hr]
        simp
theorem walkDirs_files_spec {P : List String} {ic : Bool} {ms : Nat} :
    ∀ (e : Entries) (segs : List String) (r : FileRecord),
      r ∈ (walkDirs P ic ms e segs).1 →
      ∃ dname dt tail ft, (dname, dt) ∈ e.toList ∧ dt.isDir = true ∧
        pattMatch dname P = false ∧ ReachFile P dt tail ft ∧ ft.buildFailOf = none ∧
        r = get_file_info ft ((segs ++ [dname]) ++ tail) ic ms
  | .nil, segs, r, h => absurd h (by simp [walkDirs])
  | .cons name t rest, segs, r, h => by
      simp only [walkDirs] at h
      rcases List.mem_append.mp h with h | h
      · split at h
        case isTrue hcond =>
          simp only [Bool.and_eq_true, Bool.not_eq_true'] at hcond
          obtain ⟨tail, ft, hreach, hb, hr⟩ := walkTree_files_spec t (segs ++ [name]) r h
          exact ⟨name, t, tail, ft, by simp [Entries.toList], hcond.1, hcond.2, hreach, hb, hr⟩
        case isFalse hcond => exact absurd h (by simp)
      · obtain ⟨dn, dt, tail, ft, hm, hd, hp, hreach, hb, hr⟩ := walkDirs_files_spec rest segs r h
        exact ⟨dn, dt, tail, ft, by simp [Entries.toList, hm], hd, hp, hreach, hb, hr⟩
end

/- =====================================================================
   Consequences of the retained-file relation
   ===================================================================== -/

theorem reach_tail_props {P : List String} {t : FSTree} {tail : List String} {ft : FSTree}
    (h : ReachFile P t tail ft) :
    tail ≠ [] ∧ (∀ s ∈ tail, pattMatch s P = false) ∧
    ∃ ds fname, tail = ds ++ [fname] ∧ fname ≠ script_name ∧ fname ≠ output_name := by
  induction h with
  | here hm hd hp hs ho =>
      refine ⟨by simp, ?_, [], _, rfl, hs, ho⟩
      intro s hs2
      rw [List.mem_singleton.mp hs2]
      exact hp
  | there hm hd hp hre ih =>
      obtain ⟨h1, h2, ds, fname, h3, h4, h5⟩ := ih
      refine ⟨by simp, ?_, _ :: ds, fname, by rw [h3]; rfl, h4, h5⟩
      intro s hs2
      rcases List.mem_cons.mp hs2 with h6 | h6
      · rw [h6]; exact hp
      · exact h2 s h6

theorem reach_good_names {P : List String} {t : FSTree} {tail : List String} {ft : FSTree}
    (h : ReachFile P t tail ft) : wfTree t = true → ∀ s ∈ tail, goodNameB s = true := by
  induction h with
  | here hm hd hp hs ho =>
      intro hw s hs2
      rw [List.mem_singleton.mp hs2]
      exact (wfEntries_mem _ _ _ (by rw [wfTree] at hw; exact hw) hm).1
  | there hm hd hp hre ih =>
      intro hw s hs2
      have hw2 := wfEntries_mem _ _ _ (by rw [wfTree] at hw; exact hw) hm
      rcases List.mem_cons.mp hs2 with h6 | h6
      · rw [h6]; exact hw2.1
      · exact ih hw2.2 s h6

/- =====================================================================
   The renderer only renders entries every segment of which passed the
   keepEntry filter
   ===================================================================== -/

mutual
theorem renderEntry_spec {P : List String} :
    ∀ (name : String) (t : FSTree) (parents : List String) (pre : String) (il : Bool)
      (q : List String × String), cleanTree P t = true → keepEntry name P = true →
      q ∈ renderEntry name t parents pre il →
      ∃ tail, q.1 = parents ++ tail ∧ tail ≠ [] ∧ ∀ s ∈ tail, keepEntry s P = true
  | name, .file d e, parents, pre, il, q, _, hk, hq => by
      rw [renderEntry] at hq
      rw [List.mem_singleton.mp hq]
      exact ⟨[name], rfl, by simp, fun s hs => by rw [List.mem_singleton.mp hs]; exact hk⟩
  | name, .dir c, parents, pre, il, q, hc, hk, hq => by
      rw [renderEntry] at hq
      rcases List.mem_cons.mp hq with h | h
      · rw [h]
        exact ⟨[name], rfl, by simp, fun s hs => by rw [List.mem_singleton.mp hs]; exact hk⟩
      · obtain ⟨tail, h1, h2, h3⟩ :=
          renderEntries_spec c (parents ++ [name]) (pre ++ contPrefix il) q
            (by rw [cleanTree] at hc; exact hc) h
        refine ⟨name :: tail, ?_, by simp, ?_⟩
        · rw [h1]
          simp
        · intro s hs
          rcases List.mem_cons.mp hs with h4 | h4
          · rw [h4]; exact hk
          · exact h3 s h4
theorem renderEntries_spec {P : List String} :
    ∀ (e : Entries) (parents : List String) (pre : String) (q : List String × String),
      cleanEntries P e = true → q ∈ renderEntries e parents pre →
      ∃ tail, q.1 = parents ++ tail ∧ tail ≠ [] ∧ ∀ s ∈ tail, keepEntry s P = true
  | .nil, parents, pre, q, _, hq => absurd hq (by simp [renderEntries])
  | .cons name t rest, parents, pre, q, hc, hq => by
      rw [renderEntries] at hq
      rw [cleanEntries] at hc
      simp only [Bool.and_eq_true] at hc
      rcases List.mem_append.mp hq with h | h
      · exact renderEntry_spec name t parents pre rest.isNil q hc.1.2 hc.1.1 h
      · exact renderEntries_spec rest parents pre q hc.2 h
end

/- =====================================================================
   The pruning pass leaves only clean entries
   ===================================================================== -/

mutual
theorem pruneSortTree_clean {P : List String} :
    ∀ (t : FSTree), cleanTree P (pruneSortTree P t) = true
  | .file d e => rfl
  | .dir c => by
      rw [pruneSortTree, cleanTree]
      apply (cleanEntries_iff _).mpr
      intro q hq
      obtain ⟨h2, h3⟩ := mem_toList_keepB _ q (mem_toList_sort _ q hq)
      exact ⟨h3, pruneSortChildren_clean c q h2⟩
theorem pruneSortChildren_clean {P : List String} :
    ∀ (e : Entries) (q : String × FSTree), q ∈ (pruneSortChildren P e).toList →
      cleanTree P q.2 = true
  | .nil, q, h => absurd h (by simp [pruneSortChildren, Entries.toList])
  | .cons n t rest, q, h => by
      rw [pruneSortChildren, Entries.toList] at h
      rcases List.mem_cons.mp h with h1 | h1
      · rw [h1]; exact pruneSortTree_clean t
      · exact pruneSortChildren_clean rest q h1
end

theorem renderedEntries_clean {tree : FSTree} {P : List String} :
    ∀ q ∈ renderedEntries tree P, ∀ s ∈ q.1, keepEntry s P = true := by
  intro q hq s hs
  rw [renderedEntries] at hq
  revert hq
  cases hps : pruneSortTree P tree with
  | file d e => exact fun hq => absurd hq (List.not_mem_nil q)
  | dir c =>
      intro hq
      have hclean : cleanEntries P c = true := by
        have h := pruneSortTree_clean (P := P) tree
        rw [hps, cleanTree] at h
        exact h
      obtain ⟨tail2, hq1, hq2, hq3⟩ := renderEntries_spec c [] "" q hclean hq
      rw [hq1] at hs
      exact hq3 s (by simpa using hs)

/- =====================================================================
   Claim theorems
   ===================================================================== -/

/-- C2: a file whose first 8192 bytes contain no NUL byte is classified as
text; a file with a NUL byte in that window is classified as binary,
regardless of its name or extension (the classifier never sees the name);
a file that cannot be opened for reading is classified as binary instead
of an exception escaping. -/
theorem c2_text_classifier (data : List Nat) (msg : String) (e : Option String) :
    ((0 : Nat) ∉ data.take 8192 → is_text_file (.file (.ok data) e) = true) ∧
    ((0 : Nat) ∈ data.take 8192 → is_text_file (.file (.ok data) e) = false) ∧
    is_text_file (.file (.error msg) e) = false :=
  ⟨fun h => by simp [is_text_file, h], fun h => by simp [is_text_file, h], rfl⟩

/-- C2 witness: the classifier evaluated on concrete files. -/
theorem c2_witness : is_text_file (.file (.ok [104, 105]) none) = true ∧
    is_text_file (.file (.ok [104, 0]) none) = false ∧
    is_text_file (.file (.error "denied") none) = false :=
  ⟨(c2_text_classifier [104, 105] "denied" none).1 (by decide),
   (c2_text_classifier [104, 0] "denied" none).2.1 (by decide),
   (c2_text_classifier [104, 0] "denied" none).2.2⟩

/-- C3: in every record the File Descriptor Builder produces, content and
error are mutually exclusive when content extraction is requested, and
with extraction disabled the record carries only the path, neither a
content nor an error key. -/
theorem c3_record_fields (t : FSTree) (segs : List String) (ms : Nat) :
    (((get_file_info t segs true ms).content ≠ none ∧ (get_file_info t segs true ms).error = none) ∨
      ((get_file_info t segs true ms).content = none ∧ (get_file_info t segs true ms).error ≠ none)) ∧
    (get_file_info t segs false ms).content = none ∧
    (get_file_info t segs false ms).error = none := by
  refine ⟨?_, rfl, rfl⟩
  cases t with
  | dir c => exact Or.inr ⟨rfl, by simp [get_file_info, file_payload]⟩
  | file d e =>
      cases d with
      | error msg => exact Or.inr ⟨rfl, by simp [get_file_info, file_payload]⟩
      | ok data =>
          cases ht : is_text_file (FSTree.file (.ok data) e) with
          | true =>
              exact Or.inl ⟨by simp [get_file_info, file_payload, ht],
                by simp [get_file_info, file_payload, ht]⟩
          | false =>
              exact Or.inl ⟨by simp [get_file_info, file_payload, ht],
                by simp [get_file_info, file_payload, ht]⟩

/-- C4: for a file classified as text, the stored content is the
normalization of the decoding of only the first max_size bytes, while the
classification decision is a function of the first 8192 bytes of the
original file, independent of max_size. -/
theorem c4_truncation (data : List Nat) (e : Option String) (segs : List String) (ms : Nat)
    (h : (0 : Nat) ∉ data.take 8192) :
    (get_file_info (.file (.ok data) e) segs true ms).content
      = some (normalize_content (pyDecode (data.take ms))) ∧
    is_text_file (.file (.ok data) e) = true := by
  have ht : is_text_file (.file (.ok data) e) = true := by simp [is_text_file, h]
  exact ⟨by simp [get_file_info, file_payload, ht], ht⟩

/-- C4 witness: max_size 1 on a 100-byte text file keeps one decoded byte
as content while the file is still classified as text. -/
theorem c4_witness :
    (get_file_info (.file (.ok (List.replicate 100 104)) none) ["big.txt"] true 1).content
      = some "h" ∧
    is_text_file (.file (.ok (List.replicate 100 104)) none) = true := by
  have h := c4_truncation (List.replicate 100 104) none ["big.txt"] 1 (by decide)
  exact ⟨h.1.trans (by decide), h.2⟩

/-- C5: the normalizer is idempotent and its output contains no carriage
return character. -/
theorem c5_normalize_idempotent (s : String) :
    normalize_content (normalize_content s) = normalize_content s ∧
    '\r' ∉ (normalize_content s).data := by
  have hno : ∀ c ∈ normCR (normCRLF s.data), c ≠ '\r' := fun c hc => mem_normCR_ne_cr hc
  constructor
  · show String.mk (normCR (normCRLF (normCR (normCRLF s.data)))) = _
    rw [normCRLF_no_cr _ hno, normCR_no_cr_id _ hno]
    rfl
  · exact fun hmem => mem_normCR_ne_cr hmem rfl

/-- C1: for every ignore-pattern set and every well-formed directory tree,
the path of every record in the files list decomposes at slashes into
segments none of which matches any ignore pattern, so neither a matching
entry nor any of its descendants ever appears there; every entry the
structure renderer emits likewise lies on a path all of whose segments are
unmatched, and the rendered string of the snapshot is exactly the join of
those entries, so pruning removes whole subtrees from both outputs. -/
theorem c1_total_pruning (tree : FSTree) (P : List String) (ic : Bool) (ms : Nat)
    (hwf : wfTree tree = true) :
    (∀ r ∈ (generate_snapshot tree P ic ms true).files,
        ∀ seg ∈ splitSlash r.path.data, pattMatch (String.mk seg) P = false) ∧
    (∀ q ∈ renderedEntries tree P, ∀ s ∈ q.1, pattMatch s P = false) ∧
    (generate_snapshot tree P ic ms true).file_structure
      = some (String.intercalate "\n" ((renderedEntries tree P).map Prod.snd)) := by
  refine ⟨?_, ?_, rfl⟩
  · intro r hr seg hseg
    obtain ⟨tail, ft, hreach, hb, hrec⟩ :=
      walkTree_files_spec tree [] r (show r ∈ (walkTree P ic ms tree []).1 from hr)
    obtain ⟨hne, hpat, _⟩ := reach_tail_props hreach
    have hgood := reach_good_names hreach hwf
    have hpath : r.path = joinPath tail := by rw [hrec]; rfl
    have hsplit : splitSlash (joinSegs tail) = tail.map String.data :=
      splitSlash_join tail hne (fun s hs => (goodNameB_spec (hgood s hs)).2.2)
    rw [hpath, show (joinPath tail).data = joinSegs tail from rfl, hsplit] at hseg
    obtain ⟨s, hsmem, hseq⟩ := List.mem_map.mp hseg
    rw [← hseq, strEta]
    exact hpat s hsmem
  · intro q hq s hs
    exact (keepEntry_split (renderedEntries_clean q hq s hs)).1

/-- C1 witness: in a tree with an ignored log file next to a kept
subdirectory, every path segment of the one produced record is unmatched. -/
theorem c1_witness : pattMatch "src" ["*.log"] = false ∧
    pattMatch "main.rs" ["*.log"] = false := by
  have h := (c1_total_pruning exTree ["*.log"] true 5 (by decide)).1
    { path := "src/main.rs", content := some "f", error := none } (by decide)
  exact ⟨h ("src").data (by decide), h ("main.rs").data (by decide)⟩

/-- C6: every record path is a slash-joined relative path: it does not
begin with a slash, and splitting it at slashes yields no empty segment
and no two-dot parent segment, for every well-formed input tree. -/
theorem c6_relative_paths (tree : FSTree) (P : List String) (ic : Bool) (ms : Nat) (b : Bool)
    (hwf : wfTree tree = true) :
    ∀ r ∈ (generate_snapshot tree P ic ms b).files,
      r.path.data.head? ≠ some '/' ∧ [] ∉ splitSlash r.path.data ∧
      (".." : String).data ∉ splitSlash r.path.data := by
  intro r hr
  obtain ⟨tail, ft, hreach, hb2, hrec⟩ :=
    walkTree_files_spec tree [] r (show r ∈ (walkTree P ic ms tree []).1 from hr)
  obtain ⟨hne, _, _⟩ := reach_tail_props hreach
  have hgood := reach_good_names hreach hwf
  have hpath : r.path = joinPath tail := by rw [hrec]; rfl
  have hsplit : splitSlash (joinPath tail).data = tail.map String.data :=
    splitSlash_join tail hne (fun s hs => (goodNameB_spec (hgood s hs)).2.2)
  refine ⟨?_, ?_, ?_⟩
  · rw [hpath]
    cases tail with
    | nil => exact absurd rfl hne
    | cons s rest =>
        have hs : s.data ≠ [] := (goodNameB_spec (hgood s (by simp))).1
        rw [show (joinPath (s :: rest)).data = joinSegs (s :: rest) from rfl,
          joinSegs_head s rest hs]
        intro hh
        cases hd : s.data with
        | nil => rw [hd] at hh; exact absurd hh (by simp)
        | cons c d =>
            rw [hd] at hh
            have hc : c = '/' := by simpa using hh
            exact (goodNameB_spec (hgood s (by simp))).2.2
              (by rw [hd, hc]; exact List.mem_cons_self _ _)
  · rw [hpath, hsplit]
    intro hm
    obtain ⟨s, hsm, hse⟩ := List.mem_map.mp hm
    exact (goodNameB_spec (hgood s hsm)).1 hse
  · rw [hpath, hsplit]
    intro hm
    obtain ⟨s, hsm, hse⟩ := List.mem_map.mp hm
    exact (goodNameB_spec (hgood s hsm)).2.1 (strData_inj hse)

/-- C6 witness: the concrete record path of the example tree satisfies all
three path properties. -/
theorem c6_witness : ("src/main.rs" : String).data.head? ≠ some '/' ∧
    [] ∉ splitSlash ("src/main.rs" : String).data ∧
    (".." : String).data ∉ splitSlash ("src/main.rs" : String).data :=
  c6_relative_paths exTree ["*.log"] true 5 true (by decide)
    { path := "src/main.rs", content := some "f", error := none } (by decide)

/-- C7: the walker never emits a record whose basename, the last slash
segment of its path, is the script name or the default output name, and
the renderer never renders an entry any of whose path segments is one of
those two names, whatever the ignore patterns are. -/
theorem c7_self_skip (tree : FSTree) (P : List String) (ic : Bool) (ms : Nat)
    (hwf : wfTree tree = true) :
    (∀ r ∈ (generate_snapshot tree P ic ms true).files,
        (splitSlash r.path.data).getLast? ≠ some script_name.data ∧
        (splitSlash r.path.data).getLast? ≠ some output_name.data) ∧
    (∀ q ∈ renderedEntries tree P, ∀ s ∈ q.1, s ≠ script_name ∧ s ≠ output_name) := by
  constructor
  · intro r hr
    obtain ⟨tail, ft, hreach, hb, hrec⟩ :=
      walkTree_files_spec tree [] r (show r ∈ (walkTree P ic ms tree []).1 from hr)
    obtain ⟨hne, hpat, ds, fname, htl, hfs, hfo⟩ := reach_tail_props hreach
    have hgood := reach_good_names hreach hwf
    have hpath : r.path = joinPath tail := by rw [hrec]; rfl
    have hsplit : splitSlash (joinPath tail).data = tail.map String.data :=
      splitSlash_join tail hne (fun s hs => (goodNameB_spec (hgood s hs)).2.2)
    rw [hpath, hsplit, htl, List.map_append]
    rw [show List.map String.data [fname] = [fname.data] from rfl, List.getLast?_concat _]
    exact ⟨fun hh => hfs (strData_inj (Option.some.inj hh)),
      fun hh => hfo (strData_inj (Option.some.inj hh))⟩
  · intro q hq s hs
    have h := renderedEntries_clean q hq s hs
    exact ⟨(keepEntry_split h).2.1, (keepEntry_split h).2.2⟩

/-- C7 witness: the basename of the concrete record path differs from both
hardcoded excluded names. -/
theorem c7_witness :
    (splitSlash ("src/main.rs" : String).data).getLast? ≠ some script_name.data ∧
    (splitSlash ("src/main.rs" : String).data).getLast? ≠ some output_name.data :=
  (c7_self_skip exTree ["*.log"] true 5 (by decide)).1
    { path := "src/main.rs", content := some "f", error := none } (by decide)

/-- C8: the errors key of the snapshot is present exactly when at least
one traversal-level error occurred during the walk; the run over an empty
directory tree yields an empty files list, an empty rendered structure,
and no errors key at all. -/
theorem c8_errors_key (tree : FSTree) (P : List String) (ic : Bool) (ms : Nat) (b : Bool) :
    ((generate_snapshot tree P ic ms b).errors = none ↔ (walkTree P ic ms tree []).2 = []) ∧
    generate_snapshot (.dir .nil) P ic ms b =
      { file_structure := if b then some "" else none, files := [], errors := none } := by
  constructor
  · show (if (walkTree P ic ms tree []).2.isEmpty then none
        else some (walkTree P ic ms tree []).2) = none ↔ _
    cases hE : (walkTree P ic ms tree []).2 with
    | nil => simp
    | cons x xs => simp
  · cases b <;> rfl

/-- C8 witness: a tree whose one file fails descriptor construction
produces a present errors key, and the empty tree produces none. -/
theorem c8_witness : (generate_snapshot exErrTree [] true 5 true).errors ≠ none ∧
    (generate_snapshot (.dir .nil) [] true 5 true).errors = none := by
  constructor
  · intro hn
    exact absurd ((c8_errors_key exErrTree [] true 5 true).1.mp hn) (by decide)
  · exact (c8_errors_key (.dir .nil) [] true 5 true).1.mpr (by decide)

/-- C9: on the tree with retained entries dir1 containing f1, and f2, the
renderer outputs exactly the three expected lines: lexicographic order,
root not printed, terminal connector for the last entry of each level,
and a four-space continuation under a last entry. -/
theorem c9_structure_scenario :
    generate_simple_file_structure
      (.dir (.cons "dir1" (.dir (.cons "f1" (exFile []) .nil)) (.cons "f2" (exFile []) .nil))) []
      = "├── dir1/\n│   └── f1\n└── f2" := by
  decide

/-- C10: the self-exclusion check compares basenames only against the two
hardcoded names.  A root file with any other name, in particular a
user-configured output name, is included in the snapshot, while a root
file named with the hardcoded default output name is excluded from both
the files list and the rendered structure, for every ignore-pattern set. -/
theorem c10_output_name_hardcoded (fname : String) (P : List String) (data : List Nat)
    (ic : Bool) (ms : Nat) (h1 : pattMatch fname P = false) (h2 : fname ≠ script_name)
    (h3 : fname ≠ output_name) :
    (generate_snapshot (.dir (.cons fname (.file (.ok data) none) .nil)) P ic ms true).files
      = [get_file_info (.file (.ok data) none) [fname] ic ms] ∧
    (generate_snapshot (.dir (.cons output_name (.file (.ok data) none) .nil)) P ic ms true).files
      = [] ∧
    (generate_snapshot (.dir (.cons output_name (.file (.ok data) none) .nil))
        P ic ms true).file_structure = some "" := by
  refine ⟨?_, ?_, ?_⟩
  · have hb2 : (fname == script_name || fname == output_name) = false := by
      simp [h2, h3]
    show (processFiles P ic ms (.cons fname (.file (.ok data) none) .nil) []).1 ++
        (walkDirs P ic ms (.cons fname (.file (.ok data) none) .nil) []).1 = _
    simp [processFiles, walkDirs, FSTree.isDir, FSTree.buildFailOf, h1, hb2]
  · show (processFiles P ic ms (.cons output_name (.file (.ok data) none) .nil) []).1 ++
        (walkDirs P ic ms (.cons output_name (.file (.ok data) none) .nil) []).1 = _
    cases hp : pattMatch output_name P with
    | true => simp [processFiles, walkDirs, FSTree.isDir, hp]
    | false => simp [processFiles, walkDirs, FSTree.isDir, hp]
  · have hk : keepEntry output_name P = false := by
      simp [keepEntry]
    show some (generate_simple_file_structure
      (.dir (.cons output_name (.file (.ok data) none) .nil)) P) = some ""
    rw [generate_simple_file_structure, renderedEntries]
    rw [show pruneSortTree P (.dir (.cons output_name (.file (.ok data) none) .nil))
      = .dir (Entries.sortByName (Entries.keepB P
          (pruneSortChildren P (.cons output_name (.file (.ok data) none) .nil)))) from rfl]
    rw [show pruneSortChildren P (.cons output_name (.file (.ok data) none) .nil)
      = .cons output_name (.file (.ok data) none) .nil from rfl]
    rw [show Entries.keepB P (.cons output_name (.file (.ok data) none) .nil)
      = if keepEntry output_name P then
          .cons output_name (.file (.ok data) none) (Entries.keepB P .nil)
        else Entries.keepB P .nil from rfl]
    rw [hk]
    rfl

/-- C10 witness: with the default ignore patterns, a pre-existing root
file named with a user-chosen output name is included in the files list. -/
theorem c10_witness :
    (generate_snapshot (.dir (.cons "my_snapshot.json" (.file (.ok [104]) none) .nil))
        [".git", "node_modules", "*.pyc", "__pycache__", "*.log", "target", "Cargo.lock"]
        true 10 true).files
      = [get_file_info (.file (.ok [104]) none) ["my_snapshot.json"] true 10] :=
  (c10_output_name_hardcoded "my_snapshot.json"
    [".git", "node_modules", "*.pyc", "__pycache__", "*.log", "target", "Cargo.lock"]
    [104] true 10 (by decide) (by decide) (by decide)).1

/-- C3 witness: the invariant evaluated on a concrete readable file. -/
theorem c3_witness :
    (((get_file_info (exFile [104]) ["a.txt"] true 5).content ≠ none ∧
        (get_file_info (exFile [104]) ["a.txt"] true 5).error = none) ∨
      ((get_file_info (exFile [104]) ["a.txt"] true 5).content = none ∧
        (get_file_info (exFile [104]) ["a.txt"] true 5).error ≠ none)) ∧
    (get_file_info (exFile [104]) ["a.txt"] false 5).content = none ∧
    (get_file_info (exFile [104]) ["a.txt"] false 5).error = none :=
  c3_record_fields (exFile [104]) ["a.txt"] 5

/-- C5 witness: idempotence and absence of carriage returns on a concrete
string with a CRLF pair and a lone CR. -/
theorem c5_witness :
    normalize_content (normalize_content "a\r\nb\r") = normalize_content "a\r\nb\r" ∧
    '\r' ∉ (normalize_content "a\r\nb\r").data :=
  c5_normalize_idempotent "a\r\nb\r"
